import Mathlib

/-!
Shallow embedding of the morphing-oscillator voice from
`Source/MorphingOscillator.h`.  C++ `double` values are modelled as real
numbers; the JUCE library helpers that the voice calls
(`MidiMessage::getMidiNoteInHertz`, `approximatelyEqual`,
`AudioBuffer::addSample`, `std::fmod`, `std::clamp`) are modelled by their
documented semantics.
-/

noncomputable section

open Classical

/-- C truncation toward zero, as used by `std::fmod`. -/
def ctrunc (x : ℝ) : ℤ := if 0 ≤ x then ⌊x⌋ else ⌈x⌉

/-- `std::fmod x y = x - y * trunc (x / y)` (rounding toward zero). -/
def cfmod (x y : ℝ) : ℝ := x - y * (ctrunc (x / y) : ℝ)

/-- `std::clamp v lo hi` on `int`. -/
def cclamp (v lo hi : ℤ) : ℤ := if v < lo then lo else if hi < v then hi else v

/-- Models JUCE `MidiMessage::getMidiNoteInHertz`:
`440 * 2 ^ ((note - 69) / 12)`. -/
def getMidiNoteInHertz (noteNumber : ℤ) : ℝ :=
  440 * (2 : ℝ) ^ (((noteNumber : ℝ) - 69) / 12)

/-- Models JUCE `approximatelyEqual` on `double` with its default tolerance:
within the absolute tolerance (the smallest positive normal double,
`2 ^ (-1022)`) or within the relative tolerance (machine epsilon,
`2 ^ (-52)`, scaled by the larger magnitude). -/
def approximatelyEqual (a b : ℝ) : Prop :=
  |a - b| ≤ (2 : ℝ) ^ (-1022 : ℤ) ∨ |a - b| ≤ (2 : ℝ) ^ (-52 : ℤ) * max |a| |b|

/-- The mutable fields of `MorphingWaveformVoice`
(`MorphingOscillator.h`, line 89-90). -/
structure Voice where
  phaseIndex : ℝ
  phaseIncrement : ℝ
  level : ℝ
  wavePosition : ℝ
  wave_a : ℤ
  wave_b : ℤ

/-- The default member initializers of `MorphingWaveformVoice`. -/
def Voice.init : Voice :=
  { phaseIndex := 0, phaseIncrement := 0, level := 1, wavePosition := 0,
    wave_a := 0, wave_b := 0 }

/-- `sineValue(currentAngle) = std::sin(currentAngle)`. -/
def sineValue (currentAngle : ℝ) : ℝ := Real.sin currentAngle

/-- `squareValue(currentAngle) = 1.0 - 2.0 * (double)(std::sin(currentAngle) < 0.0)`. -/
def squareValue (currentAngle : ℝ) : ℝ :=
  1 - 2 * (if Real.sin currentAngle < 0 then (1 : ℝ) else 0)

/-- `triangleValue(currentAngle) = (2/pi) * std::asin(std::sin(currentAngle))`. -/
def triangleValue (currentAngle : ℝ) : ℝ :=
  (2 / Real.pi) * Real.arcsin (Real.sin currentAngle)

/-- `sawValue(currentAngle) = (2/pi) * (std::fmod(currentAngle, twoPi) - pi)`. -/
def sawValue (currentAngle : ℝ) : ℝ :=
  (2 / Real.pi) * (cfmod currentAngle (2 * Real.pi) - Real.pi)

/-- The conditional ladder of `getWaveSample` (lines 54-59). -/
def getWaveSample (waveform : ℤ) (input : ℝ) : ℝ :=
  if waveform = 0 then sineValue input else
  if waveform = 1 then squareValue input else
  if waveform = 2 then triangleValue input else
  sawValue input

/-- `updateMorphFunctions` (lines 61-67): `wave_a` is the floor of the
position (cast to int, not clamped), `wave_b = clamp(wave_a + 1, 0, 3)`,
`wavePosition = position - floor(position)`. -/
def updateMorphFunctions (s : Voice) (position : ℝ) : Voice :=
  let positionFloor : ℤ := ⌊position⌋
  { s with wave_a := positionFloor,
           wave_b := cclamp (positionFloor + 1) 0 3,
           wavePosition := position - (positionFloor : ℝ) }

/-- `startNote` (lines 26-33): reset the phase, derive the per-sample
phase increment from the MIDI note frequency and the sample rate.
The velocity and pitch-wheel arguments are accepted and ignored. -/
def startNote (s : Voice) (midiNoteNumber : ℤ) (velocity : ℝ)
    (pitchWheel : ℤ) (sampleRate : ℝ) : Voice :=
  let currentFrequency := getMidiNoteInHertz midiNoteNumber
  let cyclesPerSample := currentFrequency / sampleRate
  { s with phaseIndex := 0, phaseIncrement := cyclesPerSample * (2 * Real.pi) }

/-- `stopNote` (line 70): zero the phase increment. -/
def stopNote (s : Voice) : Voice := { s with phaseIncrement := 0 }

/-- A JUCE `AudioBuffer`, modelled as a channel count together with the
stored sample values (channel, sample index). -/
structure AudioBuffer where
  numChannels : ℕ
  sample : ℕ → ℤ → ℝ

/-- `AudioBuffer::addSample (channel, idx, value)`: add `value` into the
stored sample at that position. -/
def AudioBuffer.addSample (buf : AudioBuffer) (channel : ℕ) (idx : ℤ)
    (value : ℝ) : AudioBuffer :=
  { buf with sample := fun c i =>
      if c = channel ∧ i = idx then buf.sample c i + value else buf.sample c i }

/-- The channel loop of `renderNextBlock` (lines 45-47): `addSample` on
each channel `0 ≤ channel < count` at the current sample position. -/
def addToChannels (buf : AudioBuffer) : ℕ → ℤ → ℝ → AudioBuffer
  | 0, _, _ => buf
  | count + 1, idx, value =>
      (addToChannels buf count idx value).addSample count idx value

/-- The sample loop body and iteration of `renderNextBlock` (lines 39-50),
run a given number of times. -/
def renderLoop : Voice → AudioBuffer → ℤ → ℕ → Voice × AudioBuffer
  | s, buf, _, 0 => (s, buf)
  | s, buf, startSample, n + 1 =>
      let wave_a_value := getWaveSample s.wave_a s.phaseIndex
      let wave_b_value := getWaveSample s.wave_b s.phaseIndex
      let interpolatedValue :=
        wave_a_value * (1 - s.wavePosition) + wave_b_value * s.wavePosition
      let levelAdjustedSample := interpolatedValue * s.level
      let buf2 := addToChannels buf buf.numChannels startSample levelAdjustedSample
      renderLoop { s with phaseIndex := s.phaseIndex + s.phaseIncrement }
        buf2 (startSample + 1) n

/-- `renderNextBlock` (lines 35-52): skip everything unless the phase
increment differs from zero by more than the `approximatelyEqual`
tolerance; otherwise run the sample loop.  `while (--numSamples >= 0)`
executes `max numSamples 0` iterations. -/
def renderNextBlock (s : Voice) (buf : AudioBuffer) (startSample : ℤ)
    (numSamples : ℤ) : Voice × AudioBuffer :=
  if ¬ approximatelyEqual s.phaseIncrement 0 then
    renderLoop s buf startSample numSamples.toNat
  else (s, buf)

/-- The per-sample contribution of a voice at phase angle `θ`:
the linear blend of the two selected waveforms, scaled by `level`. -/
def voiceSample (s : Voice) (θ : ℝ) : ℝ :=
  (getWaveSample s.wave_a θ * (1 - s.wavePosition) +
    getWaveSample s.wave_b θ * s.wavePosition) * s.level

/-- A concrete all-zero one-channel buffer, used as a concrete input. -/
def bufZero : AudioBuffer := { numChannels := 1, sample := fun _ _ => 0 }

/-- A voice whose phase increment is the smallest positive normal double:
strictly nonzero, yet inside the `approximatelyEqual` tolerance. -/
def voiceTiny : Voice := { Voice.init with phaseIncrement := (2 : ℝ) ^ (-1022 - 1 : ℤ) }

/-- A voice with phase increment `1`, well outside the tolerance. -/
def voiceOne : Voice := { Voice.init with phaseIncrement := 1 }

/-- The spec's morph-state invariant: the fraction lies in `[0,1]`, the low
index in `{0,1,2,3}`, and the high index is `clamp(low + 1, 0, 3)`. -/
def MorphInv (s : Voice) : Prop :=
  0 ≤ s.wavePosition ∧ s.wavePosition ≤ 1 ∧
  0 ≤ s.wave_a ∧ s.wave_a ≤ 3 ∧
  s.wave_b = cclamp (s.wave_a + 1) 0 3

end

/-! ### Helper lemmas about `cfmod` -/

lemma cfmod_of_nonneg (x y : ℝ) (hy : 0 < y) (hx : 0 ≤ x) :
    cfmod x y = y * Int.fract (x / y) := by
  unfold cfmod ctrunc
  rw [if_pos (div_nonneg hx hy.le), Int.fract]
  field_simp

lemma cfmod_nonneg_lower (x y : ℝ) (hy : 0 < y) (hx : 0 ≤ x) :
    0 ≤ cfmod x y := by
  rw [cfmod_of_nonneg x y hy hx]
  exact mul_nonneg hy.le (Int.fract_nonneg _)

lemma cfmod_nonneg_upper (x y : ℝ) (hy : 0 < y) (hx : 0 ≤ x) :
    cfmod x y < y := by
  rw [cfmod_of_nonneg x y hy hx]
  calc y * Int.fract (x / y) < y * 1 :=
        (mul_lt_mul_left hy).2 (Int.fract_lt_one _)
    _ = y := mul_one y

lemma cfmod_of_neg (x y : ℝ) (hy : 0 < y) (hx : x < 0) :
    cfmod x y = -(y * Int.fract (-x / y)) := by
  unfold cfmod ctrunc
  rw [if_neg (not_le.2 (div_neg_of_neg_of_pos hx hy))]
  have hc : (⌈x / y⌉ : ℤ) = -⌊-(x / y)⌋ := by rw [Int.floor_neg]; ring
  have hnd : -x / y = -(x / y) := by ring
  rw [hc, hnd, Int.fract]
  push_cast
  have hyx : y * (x / y) = x := by field_simp
  linarith [hyx]

lemma cfmod_neg_upper (x y : ℝ) (hy : 0 < y) (hx : x < 0) :
    cfmod x y ≤ 0 := by
  rw [cfmod_of_neg x y hy hx]
  simp only [neg_nonpos]
  exact mul_nonneg hy.le (Int.fract_nonneg _)

lemma cfmod_neg_lower (x y : ℝ) (hy : 0 < y) (hx : x < 0) :
    -y < cfmod x y := by
  rw [cfmod_of_neg x y hy hx, neg_lt_neg_iff]
  calc y * Int.fract (-x / y) < y * 1 :=
        (mul_lt_mul_left hy).2 (Int.fract_lt_one _)
    _ = y := mul_one y

lemma cfmod_add_self (x y : ℝ) (hy : 0 < y) (hx : 0 ≤ x) :
    cfmod (x + y) y = cfmod x y := by
  rw [cfmod_of_nonneg _ y hy (by linarith), cfmod_of_nonneg x y hy hx]
  have h : (x + y) / y = x / y + 1 := by field_simp
  rw [h, Int.fract_add_one]

lemma cfmod_eq_sub_int (x y : ℝ) (k : ℤ) (hy : 0 < y) (hk : 0 ≤ k)
    (h1 : (k : ℝ) * y ≤ x) (h2 : x < ((k : ℝ) + 1) * y) :
    cfmod x y = x - (k : ℝ) * y := by
  have hx : 0 ≤ x :=
    le_trans (mul_nonneg (by exact_mod_cast hk) hy.le) h1
  unfold cfmod ctrunc
  rw [if_pos (div_nonneg hx hy.le)]
  have hfl : ⌊x / y⌋ = k := by
    rw [Int.floor_eq_iff]
    constructor
    · rw [le_div_iff hy]; exact h1
    · rw [div_lt_iff hy]; push_cast; exact h2
  rw [hfl]
  ring

/-! ### Helper lemmas about the buffer and the render loop -/

lemma addToChannels_numChannels (buf : AudioBuffer) (k : ℕ) (idx : ℤ) (v : ℝ) :
    (addToChannels buf k idx v).numChannels = buf.numChannels := by
  induction k with
  | zero => rfl
  | succ n ih => simp [addToChannels, AudioBuffer.addSample, ih]

lemma addToChannels_sample (buf : AudioBuffer) (k : ℕ) (idx : ℤ) (v : ℝ)
    (c : ℕ) (i : ℤ) :
    (addToChannels buf k idx v).sample c i =
      if c < k ∧ i = idx then buf.sample c i + v else buf.sample c i := by
  induction k with
  | zero => simp [addToChannels]
  | succ n ih =>
      simp only [addToChannels, AudioBuffer.addSample]
      by_cases hc : c = n
      · subst hc
        by_cases hi : i = idx
        · subst hi
          simp [ih]
        · simp [hi, ih]
      · have hlt : c < n + 1 ↔ c < n := by omega
        simp [hc, ih, hlt]

lemma renderLoop_voice : ∀ (n : ℕ) (s : Voice) (buf : AudioBuffer) (start : ℤ),
    (renderLoop s buf start n).1.phaseIndex
        = s.phaseIndex + (n : ℝ) * s.phaseIncrement ∧
    (renderLoop s buf start n).1.phaseIncrement = s.phaseIncrement ∧
    (renderLoop s buf start n).1.level = s.level ∧
    (renderLoop s buf start n).1.wavePosition = s.wavePosition ∧
    (renderLoop s buf start n).1.wave_a = s.wave_a ∧
    (renderLoop s buf start n).1.wave_b = s.wave_b := by
  intro n
  induction n with
  | zero => intro s buf start; simp [renderLoop]
  | succ m ih =>
      intro s buf start
      simp only [renderLoop]
      obtain ⟨h1, h2, h3, h4, h5, h6⟩ :=
        ih { s with phaseIndex := s.phaseIndex + s.phaseIncrement }
          (addToChannels buf buf.numChannels start
            ((getWaveSample s.wave_a s.phaseIndex * (1 - s.wavePosition) +
              getWaveSample s.wave_b s.phaseIndex * s.wavePosition) * s.level))
          (start + 1)
      refine ⟨?_, h2, h3, h4, h5, h6⟩
      rw [h1]
      push_cast
      ring

lemma renderLoop_numChannels :
    ∀ (n : ℕ) (s : Voice) (buf : AudioBuffer) (start : ℤ),
    (renderLoop s buf start n).2.numChannels = buf.numChannels := by
  intro n
  induction n with
  | zero => intro s buf start; rfl
  | succ m ih =>
      intro s buf start
      simp only [renderLoop]
      rw [ih, addToChannels_numChannels]

lemma voiceSample_phase_update (s : Voice) (p θ : ℝ) :
    voiceSample { s with phaseIndex := p } θ = voiceSample s θ := rfl

lemma renderLoop_sample :
    ∀ (n : ℕ) (s : Voice) (buf : AudioBuffer) (start : ℤ) (c : ℕ) (i : ℤ),
    (renderLoop s buf start n).2.sample c i =
      if c < buf.numChannels ∧ start ≤ i ∧ i < start + (n : ℤ) then
        buf.sample c i +
          voiceSample s (s.phaseIndex + ((i - start : ℤ) : ℝ) * s.phaseIncrement)
      else buf.sample c i := by
  intro n
  induction n with
  | zero =>
      intro s buf start c i
      have h : ¬ (c < buf.numChannels ∧ start ≤ i ∧ i < start) := by
        push_neg
        intro _ h2
        omega
      simp only [renderLoop]
      simp [h]
  | succ m ih =>
      intro s buf start c i
      simp only [renderLoop]
      set v := (getWaveSample s.wave_a s.phaseIndex * (1 - s.wavePosition) +
        getWaveSample s.wave_b s.phaseIndex * s.wavePosition) * s.level with hv
      have hvv : v = voiceSample s s.phaseIndex := rfl
      set buf2 := addToChannels buf buf.numChannels start v with hbuf2
      have hnc : buf2.numChannels = buf.numChannels := addToChannels_numChannels _ _ _ _
      rw [ih { s with phaseIndex := s.phaseIndex + s.phaseIncrement } buf2 (start + 1) c i]
      simp only [hnc, voiceSample_phase_update]
      rw [hbuf2, addToChannels_sample]
      by_cases hc : c < buf.numChannels
      · by_cases hi0 : i = start
        · subst hi0
          have ht : ¬ (c < buf.numChannels ∧ i + 1 ≤ i ∧ i < i + 1 + (m : ℤ)) := by
            push_neg
            intro _ h2
            omega
          have hhd : c < buf.numChannels ∧ i ≤ i ∧ i < i + ((m : ℕ) + 1 : ℤ) := by
            refine ⟨hc, le_refl i, by omega⟩
          rw [if_neg ht, if_pos ⟨hc, rfl⟩, if_pos (by push_cast; push_cast at hhd; exact hhd)]
          rw [hvv]
          simp
        · by_cases hrange : start + 1 ≤ i ∧ i < start + 1 + (m : ℤ)
          · have hhd : c < buf.numChannels ∧ start ≤ i ∧ i < start + ((m : ℤ) + 1) := by
              refine ⟨hc, by omega, by omega⟩
            rw [if_pos ⟨hc, hrange⟩, if_neg (by exact fun hq => hi0 hq.2),
              if_pos (by push_cast; push_cast at hhd; exact hhd)]
            have harg : s.phaseIndex + s.phaseIncrement +
                ((i - (start + 1) : ℤ) : ℝ) * s.phaseIncrement =
                s.phaseIndex + ((i - start : ℤ) : ℝ) * s.phaseIncrement := by
              push_cast
              ring
            rw [harg]
          · have hout : ¬ (c < buf.numChannels ∧ start ≤ i ∧ i < start + ((m : ℕ) + 1 : ℤ)) := by
              push_neg
              push_neg at hrange
              intro _ h2
              have : i ≠ start := hi0
              omega
            rw [if_neg (by push_neg; push_neg at hrange; intro _ h2; omega),
              if_neg (by exact fun hq => hi0 hq.2),
              if_neg (by push_cast; push_cast at hout; exact hout)]
      · have hnott : ∀ P : Prop, ¬ (c < buf.numChannels ∧ P) := fun P hq => hc hq.1
        rw [if_neg (hnott _), if_neg (hnott _), if_neg (hnott _)]

lemma approximatelyEqual_zero_zero : approximatelyEqual 0 0 := by
  left
  simp
  positivity

lemma approximatelyEqual_of_eq_zero {x : ℝ} (h : x = 0) :
    approximatelyEqual x 0 := h ▸ approximatelyEqual_zero_zero

lemma ne_zero_of_not_approximatelyEqual {x : ℝ}
    (h : ¬ approximatelyEqual x 0) : x ≠ 0 :=
  fun hx => h (approximatelyEqual_of_eq_zero hx)

/-! ### Claim theorems -/

/-- C3: after `updateMorphFunctions p`, `wave_a` is the (unclamped) floor of
`p`, `wave_b = clamp(wave_a + 1, 0, 3)` and `wavePosition` is the
fractional part; in particular position `0` gives index `0` and fraction
`0`, position `3` gives `wave_a = wave_b = 3` and fraction `0`, and
position `1.5` gives `wave_a = 1`, `wave_b = 2`, fraction `1/2`. -/
theorem C3_setMorph_floor_clamp_fract :
    (∀ (s : Voice) (p : ℝ),
        (updateMorphFunctions s p).wave_a = ⌊p⌋ ∧
        (updateMorphFunctions s p).wave_b = cclamp (⌊p⌋ + 1) 0 3 ∧
        (updateMorphFunctions s p).wavePosition = p - (⌊p⌋ : ℝ)) ∧
    (∀ s : Voice,
        (updateMorphFunctions s 0).wave_a = 0 ∧
        (updateMorphFunctions s 0).wavePosition = 0) ∧
    (∀ s : Voice,
        (updateMorphFunctions s 3).wave_a = 3 ∧
        (updateMorphFunctions s 3).wave_b = 3 ∧
        (updateMorphFunctions s 3).wavePosition = 0) ∧
    (∀ s : Voice,
        (updateMorphFunctions s (3 / 2)).wave_a = 1 ∧
        (updateMorphFunctions s (3 / 2)).wave_b = 2 ∧
        (updateMorphFunctions s (3 / 2)).wavePosition = 1 / 2) := by
  have hf0 : ⌊(0 : ℝ)⌋ = 0 := Int.floor_zero
  have hf3 : ⌊(3 : ℝ)⌋ = 3 := by
    rw [show (3 : ℝ) = ((3 : ℤ) : ℝ) by norm_num, Int.floor_intCast]
  have hf32 : ⌊(3 / 2 : ℝ)⌋ = 1 := by
    rw [Int.floor_eq_iff]
    constructor
    · norm_num
    · norm_num
  refine ⟨fun s p => ⟨rfl, rfl, rfl⟩, fun s => ?_, fun s => ?_, fun s => ?_⟩
  · simp [updateMorphFunctions, hf0]
  · simp [updateMorphFunctions, hf3, cclamp]
  · refine ⟨?_, ?_, ?_⟩
    · simp [updateMorphFunctions, hf32]
    · simp [updateMorphFunctions, hf32, cclamp]
    · simp [updateMorphFunctions, hf32]
      norm_num

/-- C5: `startNote` resets the phase to `0` and sets the phase increment to
`2π * (440 * 2^((n-69)/12)) / sampleRate`, independently of the velocity
and pitch-wheel arguments. -/
theorem C5_startNote_phase_and_increment (s : Voice) (n pw : ℤ) (v sr : ℝ)
    (hsr : 0 < sr) :
    (startNote s n v pw sr).phaseIndex = 0 ∧
    (startNote s n v pw sr).phaseIncrement
      = 2 * Real.pi * (440 * (2 : ℝ) ^ (((n : ℝ) - 69) / 12)) / sr ∧
    (∀ (v2 : ℝ) (pw2 : ℤ), startNote s n v2 pw2 sr = startNote s n v pw sr) := by
  refine ⟨rfl, ?_, fun v2 pw2 => rfl⟩
  show getMidiNoteInHertz n / sr * (2 * Real.pi) = _
  rw [getMidiNoteInHertz]
  ring

/-- Witness for C5 at note 69 (A4) and sample rate 44100: the phase resets
to `0` and the increment is exactly `2π * 440 / 44100`. -/
theorem C5_startNote_phase_and_increment_witness :
    (startNote Voice.init 69 (1 / 2) 0 44100).phaseIndex = 0 ∧
    (startNote Voice.init 69 (1 / 2) 0 44100).phaseIncrement
      = 2 * Real.pi * 440 / 44100 := by
  obtain ⟨h1, h2, _⟩ :=
    C5_startNote_phase_and_increment Voice.init 69 0 (1 / 2) 44100 (by norm_num)
  refine ⟨h1, ?_⟩
  rw [h2]
  have he : ((((69 : ℤ) : ℝ)) - 69) / 12 = 0 := by norm_num
  rw [he, Real.rpow_zero]
  norm_num

/-- C6: `stopNote` zeroes the phase increment, and every subsequent
`renderNextBlock` call returns the state and the buffer completely
unchanged: the sample loop is skipped by the silence short-circuit. -/
theorem C6_stopNote_render_noop (s : Voice) (buf : AudioBuffer)
    (start n : ℤ) :
    (stopNote s).phaseIncrement = 0 ∧
    renderNextBlock (stopNote s) buf start n = (stopNote s, buf) := by
  refine ⟨rfl, ?_⟩
  have ha : approximatelyEqual (stopNote s).phaseIncrement 0 :=
    approximatelyEqual_zero_zero
  rw [renderNextBlock, if_neg (not_not_intro ha)]

/-- C7: a zero or negative sample count makes `renderNextBlock` a complete
no-op on the state and the buffer, whatever the phase increment. -/
theorem C7_render_nonpositive_noop (s : Voice) (buf : AudioBuffer)
    (start n : ℤ) (hn : n ≤ 0) :
    renderNextBlock s buf start n = (s, buf) := by
  have ht : n.toNat = 0 := Int.toNat_of_nonpos hn
  rw [renderNextBlock, ht]
  by_cases h : approximatelyEqual s.phaseIncrement 0
  · rw [if_neg (not_not_intro h)]
  · rw [if_pos h]
    rfl

/-- Witness for C7: rendering `-3` samples from the initial state leaves
everything unchanged. -/
theorem C7_render_nonpositive_noop_witness :
    renderNextBlock Voice.init bufZero 0 (-3) = (Voice.init, bufZero) :=
  C7_render_nonpositive_noop Voice.init bufZero 0 (-3) (by norm_num)

/-- C9: `getWaveSample` is total over every integer kind: kind 0 is exactly
`sin`, kind 1 the square, kind 2 the triangle, and every other integer
kind (negative or `≥ 3`) falls through to the sawtooth. -/
theorem C9_getWaveSample_total_dispatch (a : ℝ) :
    getWaveSample 0 a = Real.sin a ∧
    getWaveSample 1 a = squareValue a ∧
    getWaveSample 2 a = triangleValue a ∧
    (∀ k : ℤ, k ≠ 0 → k ≠ 1 → k ≠ 2 → getWaveSample k a = sawValue a) := by
  refine ⟨rfl, rfl, rfl, fun k h0 h1 h2 => ?_⟩
  simp [getWaveSample, h0, h1, h2]

/-- Witness for C9: both a negative kind and a kind above 3 dispatch to the
sawtooth. -/
theorem C9_getWaveSample_total_dispatch_witness :
    getWaveSample (-7) 1 = sawValue 1 ∧ getWaveSample 5 1 = sawValue 1 :=
  ⟨(C9_getWaveSample_total_dispatch 1).2.2.2 (-7) (by decide) (by decide) (by decide),
   (C9_getWaveSample_total_dispatch 1).2.2.2 5 (by decide) (by decide) (by decide)⟩

lemma sawValue_zero : sawValue 0 = -2 := by
  have h0 : cfmod 0 (2 * Real.pi) = 0 := by
    unfold cfmod ctrunc
    norm_num
  rw [sawValue, h0, zero_sub]
  field_simp

lemma sawValue_nonneg_bounds (a : ℝ) (ha : 0 ≤ a) :
    -2 ≤ sawValue a ∧ sawValue a < 2 := by
  have hy : 0 < 2 * Real.pi := by positivity
  have hm0 : 0 ≤ cfmod a (2 * Real.pi) := cfmod_nonneg_lower a _ hy ha
  have hm1 : cfmod a (2 * Real.pi) < 2 * Real.pi := cfmod_nonneg_upper a _ hy ha
  have hpi : 0 < Real.pi := Real.pi_pos
  have hc : 0 < 2 / Real.pi := by positivity
  constructor
  · rw [sawValue]
    have h1 : -Real.pi ≤ cfmod a (2 * Real.pi) - Real.pi := by linarith
    have h2 := mul_le_mul_of_nonneg_left h1 hc.le
    have h3 : 2 / Real.pi * -Real.pi = -2 := by field_simp
    linarith
  · rw [sawValue]
    have h1 : cfmod a (2 * Real.pi) - Real.pi < Real.pi := by linarith
    have h2 := mul_lt_mul_of_pos_left h1 hc
    have h3 : 2 / Real.pi * Real.pi = 2 := by field_simp
    linarith

lemma sawValue_all_bounds (a : ℝ) : -6 < sawValue a ∧ sawValue a < 2 := by
  rcases le_or_lt 0 a with ha | ha
  · obtain ⟨h1, h2⟩ := sawValue_nonneg_bounds a ha
    exact ⟨by linarith, h2⟩
  · have hy : 0 < 2 * Real.pi := by positivity
    have hm0 : -(2 * Real.pi) < cfmod a (2 * Real.pi) := cfmod_neg_lower a _ hy ha
    have hm1 : cfmod a (2 * Real.pi) ≤ 0 := cfmod_neg_upper a _ hy ha
    have hpi : 0 < Real.pi := Real.pi_pos
    have hc : 0 < 2 / Real.pi := by positivity
    constructor
    · rw [sawValue]
      have h1 : -(3 * Real.pi) < cfmod a (2 * Real.pi) - Real.pi := by linarith
      have h2 := mul_lt_mul_of_pos_left h1 hc
      have h3 : 2 / Real.pi * -(3 * Real.pi) = -6 := by field_simp; ring
      linarith
    · rw [sawValue]
      have h1 : cfmod a (2 * Real.pi) - Real.pi < Real.pi := by linarith
      have h2 := mul_lt_mul_of_pos_left h1 hc
      have h3 : 2 / Real.pi * Real.pi = 2 := by field_simp
      linarith

/-- Counterexample to C2 as stated: at angle `0` the sawtooth generator
(kind 3) already yields `-2`, strictly below `-1`. -/
theorem C2_range_counterexample :
    getWaveSample 3 0 = -2 ∧ ¬ (-1 ≤ getWaveSample 3 0 ∧ getWaveSample 3 0 ≤ 1) := by
  have h : getWaveSample 3 0 = -2 := by
    show sawValue 0 = -2
    exact sawValue_zero
  refine ⟨h, ?_⟩
  rw [h]
  intro hq
  linarith [hq.1]

/-- C2 amended: sine, square and triangle always lie in `[-1, 1]`, but the
sawtooth generator has amplitude 2: it lies in `[-2, 2)` for nonnegative
angles and only in `(-6, 2)` over all real angles. -/
theorem C2_generator_ranges :
    (∀ a : ℝ, -1 ≤ sineValue a ∧ sineValue a ≤ 1) ∧
    (∀ a : ℝ, -1 ≤ squareValue a ∧ squareValue a ≤ 1) ∧
    (∀ a : ℝ, -1 ≤ triangleValue a ∧ triangleValue a ≤ 1) ∧
    (∀ a : ℝ, 0 ≤ a → -2 ≤ sawValue a ∧ sawValue a < 2) ∧
    (∀ a : ℝ, -6 < sawValue a ∧ sawValue a < 2) := by
  refine ⟨?_, ?_, ?_, fun a ha => sawValue_nonneg_bounds a ha,
    fun a => sawValue_all_bounds a⟩
  · exact fun a => ⟨Real.neg_one_le_sin a, Real.sin_le_one a⟩
  · intro a
    unfold squareValue
    by_cases h : Real.sin a < 0
    · rw [if_pos h]; norm_num
    · rw [if_neg h]; norm_num
  · intro a
    unfold triangleValue
    have hpi : 0 < Real.pi := Real.pi_pos
    have hc : 0 ≤ 2 / Real.pi := by positivity
    have hub := mul_le_mul_of_nonneg_left
      (Real.arcsin_le_pi_div_two (Real.sin a)) hc
    have hlb := mul_le_mul_of_nonneg_left
      (Real.neg_pi_div_two_le_arcsin (Real.sin a)) hc
    have he : 2 / Real.pi * (Real.pi / 2) = 1 := by field_simp
    constructor
    · have he2 : 2 / Real.pi * -(Real.pi / 2) = -1 := by
        field_simp
        ring
      linarith
    · linarith

/-- Witness for C2 amended: the sawtooth bound instantiated at angle `0`,
where the value is exactly the lower endpoint `-2`. -/
theorem C2_generator_ranges_witness :
    -2 ≤ sawValue 0 ∧ sawValue 0 < 2 :=
  C2_generator_ranges.2.2.2.1 0 (by norm_num)

/-- Counterexample to C4 as stated: `updateMorphFunctions` with position
`-1/2` leaves `morphIndex = -1`, outside `{0,1,2,3}`; moreover at
construction `wave_b = 0` while `clamp(wave_a + 1, 0, 3) = 1`. -/
theorem C4_invariant_counterexample :
    (updateMorphFunctions Voice.init (-(1 / 2))).wave_a = -1 ∧
    ¬ (0 ≤ (updateMorphFunctions Voice.init (-(1 / 2))).wave_a) ∧
    Voice.init.wave_b = 0 ∧ cclamp (Voice.init.wave_a + 1) 0 3 = 1 := by
  have hf : ⌊(-(1 / 2) : ℝ)⌋ = -1 := by
    rw [Int.floor_eq_iff]
    constructor
    · norm_num
    · norm_num
  refine ⟨?_, ?_, rfl, rfl⟩
  · show ⌊(-(1 / 2) : ℝ)⌋ = -1
    exact hf
  · show ¬ (0 ≤ ⌊(-(1 / 2) : ℝ)⌋)
    rw [hf]
    decide

/-- C4 amended: the invariant `morphFraction ∈ [0,1]`,
`morphIndex ∈ {0,1,2,3}`, `wave_b = clamp(wave_a + 1, 0, 3)` is
established by `updateMorphFunctions` for positions in `[0, 4)` (not for
arbitrary reals) and preserved by `startNote`, `stopNote` and
`renderNextBlock`; at construction it does not yet hold
(`wave_b = 0 ≠ clamp(0 + 1, 0, 3)`). -/
theorem C4_invariant_amended :
    (∀ (s : Voice) (p : ℝ), 0 ≤ p → p < 4 →
        MorphInv (updateMorphFunctions s p)) ∧
    (∀ (s : Voice) (n pw : ℤ) (v sr : ℝ), MorphInv s →
        MorphInv (startNote s n v pw sr)) ∧
    (∀ s : Voice, MorphInv s → MorphInv (stopNote s)) ∧
    (∀ (s : Voice) (buf : AudioBuffer) (start n : ℤ), MorphInv s →
        MorphInv (renderNextBlock s buf start n).1) := by
  refine ⟨?_, ?_, ?_, ?_⟩
  · intro s p hp0 hp4
    have hfl0 : 0 ≤ ⌊p⌋ := Int.floor_nonneg.2 hp0
    have hfl3 : ⌊p⌋ ≤ 3 := by
      have : ⌊p⌋ < 4 := Int.floor_lt.2 (by exact_mod_cast hp4)
      omega
    refine ⟨?_, ?_, hfl0, hfl3, rfl⟩
    · show 0 ≤ p - (⌊p⌋ : ℝ)
      have := Int.floor_le p
      linarith
    · show p - (⌊p⌋ : ℝ) ≤ 1
      have := Int.lt_floor_add_one p
      linarith
  · intro s n pw v sr h
    exact h
  · intro s h
    exact h
  · intro s buf start n h
    rw [renderNextBlock]
    by_cases hg : approximatelyEqual s.phaseIncrement 0
    · rw [if_neg (not_not_intro hg)]
      exact h
    · rw [if_pos hg]
      obtain ⟨_, _, _, h4, h5, h6⟩ := renderLoop_voice n.toNat s buf start
      exact ⟨h4 ▸ h.1, h4 ▸ h.2.1, h5 ▸ h.2.2.1, h5 ▸ h.2.2.2.1,
        by rw [h5, h6]; exact h.2.2.2.2⟩

/-- Witness for C4 amended: the invariant holds after `setMorph(1.5)` from
the initial state, and survives a `startNote`/`render` after it. -/
theorem C4_invariant_amended_witness :
    MorphInv (updateMorphFunctions Voice.init (3 / 2)) :=
  C4_invariant_amended.1 Voice.init (3 / 2) (by norm_num) (by norm_num)

lemma approximatelyEqual_tiny : approximatelyEqual ((2 : ℝ) ^ (-1022 - 1 : ℤ)) 0 := by
  left
  have hp : (0 : ℝ) < (2 : ℝ) ^ (-1022 - 1 : ℤ) := by positivity
  rw [sub_zero, abs_of_pos hp]
  exact zpow_le_zpow_right₀ (by norm_num) (by norm_num)

lemma not_approximatelyEqual_one : ¬ approximatelyEqual 1 0 := by
  intro h
  have h1 : ((2 : ℝ)) ^ (-1022 : ℤ) < 1 :=
    zpow_lt_one_of_neg₀ (by norm_num) (by norm_num)
  have h2 : ((2 : ℝ)) ^ (-52 : ℤ) < 1 :=
    zpow_lt_one_of_neg₀ (by norm_num) (by norm_num)
  rcases h with h | h
  · rw [sub_zero, abs_one] at h
    linarith
  · rw [sub_zero, abs_one, abs_zero, max_eq_left (zero_le_one)] at h
    rw [mul_one] at h
    linarith

/-- C10: the silence short-circuit is an approximate comparison: any state
whose increment is within the `approximatelyEqual` tolerance of `0`
renders nothing, any state outside the tolerance advances the phase; and
the strictly nonzero increment `2^(-1023)` is inside the tolerance, so it
is silently skipped even though no `stopNote` was called. -/
theorem C10_approximatelyEqual_gate :
    (∀ (s : Voice) (buf : AudioBuffer) (start n : ℤ),
        approximatelyEqual s.phaseIncrement 0 →
        renderNextBlock s buf start n = (s, buf)) ∧
    (∀ (s : Voice) (buf : AudioBuffer) (start n : ℤ),
        ¬ approximatelyEqual s.phaseIncrement 0 → 1 ≤ n →
        (renderNextBlock s buf start n).1.phaseIndex ≠ s.phaseIndex) ∧
    (voiceTiny.phaseIncrement ≠ 0 ∧
      ∀ (buf : AudioBuffer) (start n : ℤ),
        renderNextBlock voiceTiny buf start n = (voiceTiny, buf)) := by
  refine ⟨?_, ?_, ?_, ?_⟩
  · intro s buf start n h
    rw [renderNextBlock, if_neg (not_not_intro h)]
  · intro s buf start n hg hn
    rw [renderNextBlock, if_pos hg]
    obtain ⟨h1, _, _, _, _, _⟩ := renderLoop_voice n.toNat s buf start
    rw [h1]
    have hinc : s.phaseIncrement ≠ 0 := ne_zero_of_not_approximatelyEqual hg
    have hnt : 1 ≤ n.toNat := by omega
    have hpos : (0 : ℝ) < (n.toNat : ℝ) := by exact_mod_cast hnt
    intro hq
    have : ((n.toNat : ℝ)) * s.phaseIncrement = 0 := by linarith
    exact hinc ((mul_eq_zero.1 this).resolve_left (ne_of_gt hpos))
  · show (2 : ℝ) ^ (-1022 - 1 : ℤ) ≠ 0
    exact zpow_ne_zero _ (by norm_num)
  · intro buf start n
    rw [renderNextBlock,
      if_neg (not_not_intro (show approximatelyEqual voiceTiny.phaseIncrement 0 from
        approximatelyEqual_tiny))]

/-- Witness for C10: the gate applied to the freshly constructed (silent)
voice renders nothing. -/
theorem C10_approximatelyEqual_gate_witness :
    renderNextBlock Voice.init bufZero 0 5 = (Voice.init, bufZero) :=
  C10_approximatelyEqual_gate.1 Voice.init bufZero 0 5
    (approximatelyEqual_of_eq_zero rfl)

/-- Counterexample to C1 as stated: with the strictly nonzero increment
`2^(-1023)` and one requested sample, the loop is skipped: the phase stays
put instead of advancing by `1 * phaseIncrement` as the claim requires. -/
theorem C1_render_counterexample :
    voiceTiny.phaseIncrement ≠ 0 ∧
    (renderNextBlock voiceTiny bufZero 0 1).1.phaseIndex = voiceTiny.phaseIndex ∧
    voiceTiny.phaseIndex + (1 : ℝ) * voiceTiny.phaseIncrement ≠ voiceTiny.phaseIndex := by
  refine ⟨?_, ?_, ?_⟩
  · show (2 : ℝ) ^ (-1022 - 1 : ℤ) ≠ 0
    exact zpow_ne_zero _ (by norm_num)
  · rw [renderNextBlock,
      if_neg (not_not_intro (show approximatelyEqual voiceTiny.phaseIncrement 0 from
        approximatelyEqual_tiny))]
  · show voiceTiny.phaseIndex + (1 : ℝ) * voiceTiny.phaseIncrement ≠ voiceTiny.phaseIndex
    have : voiceTiny.phaseIncrement ≠ 0 := zpow_ne_zero _ (by norm_num)
    intro hq
    apply this
    linarith

/-- C1 amended: when the phase increment is outside the
`approximatelyEqual` tolerance of zero (rather than merely nonzero) and
`n ≥ 1`, `renderNextBlock` adds the level-scaled linear blend evaluated at
`phase + i * phaseIncrement` into every channel at `startSample + i` for
`i = 0..n-1`, leaves every other buffer cell and all non-phase state
unchanged, and ends with `phase` advanced by exactly `n * phaseIncrement`,
so a second call continues phase-continuously. -/
theorem C1_render_amended (s : Voice) (buf : AudioBuffer) (start n : ℤ)
    (hg : ¬ approximatelyEqual s.phaseIncrement 0) (hn : 1 ≤ n) :
    (renderNextBlock s buf start n).1.phaseIndex
        = s.phaseIndex + (n : ℝ) * s.phaseIncrement ∧
    (renderNextBlock s buf start n).1.phaseIncrement = s.phaseIncrement ∧
    (renderNextBlock s buf start n).1.level = s.level ∧
    (renderNextBlock s buf start n).1.wavePosition = s.wavePosition ∧
    (renderNextBlock s buf start n).1.wave_a = s.wave_a ∧
    (renderNextBlock s buf start n).1.wave_b = s.wave_b ∧
    (renderNextBlock s buf start n).2.numChannels = buf.numChannels ∧
    (∀ (c : ℕ) (i : ℤ), c < buf.numChannels → start ≤ i → i < start + n →
        (renderNextBlock s buf start n).2.sample c i
          = buf.sample c i +
            (getWaveSample s.wave_a
                (s.phaseIndex + ((i - start : ℤ) : ℝ) * s.phaseIncrement)
                * (1 - s.wavePosition) +
              getWaveSample s.wave_b
                (s.phaseIndex + ((i - start : ℤ) : ℝ) * s.phaseIncrement)
                * s.wavePosition) * s.level) ∧
    (∀ (c : ℕ) (i : ℤ),
        ¬ (c < buf.numChannels ∧ start ≤ i ∧ i < start + n) →
        (renderNextBlock s buf start n).2.sample c i = buf.sample c i) := by
  have hnn : (0 : ℤ) ≤ n := by omega
  have htn : ((n.toNat : ℤ)) = n := Int.toNat_of_nonneg hnn
  have htn2 : ((n.toNat : ℕ) : ℝ) = (n : ℝ) := by exact_mod_cast htn
  rw [renderNextBlock, if_pos hg]
  obtain ⟨h1, h2, h3, h4, h5, h6⟩ := renderLoop_voice n.toNat s buf start
  refine ⟨?_, h2, h3, h4, h5, h6,
    renderLoop_numChannels n.toNat s buf start, ?_, ?_⟩
  · rw [h1, htn2]
  · intro c i hc hi1 hi2
    rw [renderLoop_sample n.toNat s buf start c i,
      if_pos ⟨hc, hi1, by rw [htn]; exact hi2⟩]
    rfl
  · intro c i hq
    rw [renderLoop_sample n.toNat s buf start c i, if_neg (by rw [htn]; exact hq)]

/-- Witness for C1 amended: with increment `1` (outside the tolerance) and
two samples, the phase ends at exactly `2 * phaseIncrement`. -/
theorem C1_render_amended_witness :
    (renderNextBlock voiceOne bufZero 0 2).1.phaseIndex
      = voiceOne.phaseIndex + (((2 : ℤ)) : ℝ) * voiceOne.phaseIncrement :=
  (C1_render_amended voiceOne bufZero 0 2
    (show ¬ approximatelyEqual voiceOne.phaseIncrement 0 from
      not_approximatelyEqual_one)
    (by norm_num)).1

lemma cfmod_of_neg_small (x y : ℝ) (hy : 0 < y) (h1 : -y < x) (h2 : x < 0) :
    cfmod x y = x := by
  rw [cfmod_of_neg x y hy h2]
  have hfr : Int.fract (-x / y) = -x / y := by
    rw [Int.fract_eq_self]
    constructor
    · exact div_nonneg (by linarith) hy.le
    · rw [div_lt_one hy]
      linarith
  rw [hfr]
  field_simp

lemma sawValue_pi : sawValue Real.pi = 0 := by
  have hy : 0 < 2 * Real.pi := by positivity
  have hcf : cfmod Real.pi (2 * Real.pi) = Real.pi := by
    have h := cfmod_eq_sub_int Real.pi (2 * Real.pi) 0 hy le_rfl
      (by simpa using Real.pi_pos.le)
      (by push_cast; nlinarith [Real.pi_pos])
    simpa using h
  rw [sawValue, hcf]
  simp

lemma sawValue_neg_pi : sawValue (-Real.pi) = -4 := by
  have hy : 0 < 2 * Real.pi := by positivity
  have hcf : cfmod (-Real.pi) (2 * Real.pi) = -Real.pi :=
    cfmod_of_neg_small _ _ hy (by nlinarith [Real.pi_pos])
      (by nlinarith [Real.pi_pos])
  rw [sawValue, hcf]
  have hpi := Real.pi_ne_zero
  field_simp
  ring

/-- Counterexample to C8 as stated: sawtooth 2π-periodicity fails on
negative angles: `sawValue(-π + 2π) = 0` but `sawValue(-π) = -4`. -/
theorem C8_periodicity_counterexample :
    sawValue (-Real.pi + 2 * Real.pi) = 0 ∧ sawValue (-Real.pi) = -4 ∧
    sawValue (-Real.pi + 2 * Real.pi) ≠ sawValue (-Real.pi) := by
  have he : -Real.pi + 2 * Real.pi = Real.pi := by ring
  rw [he, sawValue_pi, sawValue_neg_pi]
  norm_num

/-- C8 amended: the triangle generator is 2π-periodic over all reals and
continuous everywhere; the sawtooth is 2π-periodic on the nonnegative
angles (the domain the phase accumulator actually visits), continuous at
every positive non-boundary angle, and genuinely discontinuous at the
period boundary `2π` — but it is not periodic across negative angles. -/
theorem C8_periodicity_continuity :
    (∀ a : ℝ, triangleValue (a + 2 * Real.pi) = triangleValue a) ∧
    Continuous triangleValue ∧
    (∀ a : ℝ, 0 ≤ a → sawValue (a + 2 * Real.pi) = sawValue a) ∧
    (∀ (k : ℕ) (x : ℝ), 2 * Real.pi * k < x → x < 2 * Real.pi * (k + 1) →
        ContinuousAt sawValue x) ∧
    ¬ ContinuousAt sawValue (2 * Real.pi) := by
  have hy : 0 < 2 * Real.pi := by positivity
  refine ⟨?_, ?_, ?_, ?_, ?_⟩
  · intro a
    unfold triangleValue
    rw [Real.sin_add_two_pi]
  · unfold triangleValue
    exact continuous_const.mul (Real.continuous_arcsin.comp Real.continuous_sin)
  · intro a ha
    unfold sawValue
    rw [cfmod_add_self a (2 * Real.pi) hy ha]
  · intro k x h1 h2
    have hEq : ∀ t ∈ Set.Ioo (2 * Real.pi * k) (2 * Real.pi * (k + 1)),
        sawValue t = (2 / Real.pi) * (t - 2 * Real.pi * k - Real.pi) := by
      intro t ht
      obtain ⟨ht1, ht2⟩ := ht
      have hcf : cfmod t (2 * Real.pi) = t - ((k : ℤ) : ℝ) * (2 * Real.pi) := by
        apply cfmod_eq_sub_int t (2 * Real.pi) (k : ℤ) hy
          (by exact_mod_cast Nat.zero_le k)
        · push_cast
          linarith
        · push_cast
          linarith
      rw [sawValue, hcf]
      push_cast
      ring
    have hopen : Set.Ioo (2 * Real.pi * k) (2 * Real.pi * (k + 1)) ∈ nhds x :=
      isOpen_Ioo.mem_nhds ⟨h1, h2⟩
    have hg : ContinuousAt (fun t => (2 / Real.pi) * (t - 2 * Real.pi * k - Real.pi)) x :=
      (continuous_const.mul
        ((continuous_id.sub continuous_const).sub continuous_const)).continuousAt
    exact hg.congr
      (Filter.eventuallyEq_of_mem hopen (fun t ht => (hEq t ht).symm))
  · intro hcont
    have hval : sawValue (2 * Real.pi) = -2 := by
      have hcf : cfmod (2 * Real.pi) (2 * Real.pi) = 0 := by
        have h := cfmod_eq_sub_int (2 * Real.pi) (2 * Real.pi) 1 hy
          (by norm_num) (by simp) (by push_cast; nlinarith [Real.pi_pos])
        rw [h]
        push_cast
        ring
      rw [sawValue, hcf, zero_sub]
      field_simp
    have hW : Filter.Tendsto sawValue
        (nhdsWithin (2 * Real.pi) (Set.Iio (2 * Real.pi))) (nhds (-2)) := by
      have h := hcont.continuousWithinAt (s := Set.Iio (2 * Real.pi))
      rw [ContinuousWithinAt, hval] at h
      exact h
    have hG : Filter.Tendsto sawValue
        (nhdsWithin (2 * Real.pi) (Set.Iio (2 * Real.pi))) (nhds 2) := by
      have hgc : Filter.Tendsto (fun t => (2 / Real.pi) * (t - Real.pi))
          (nhdsWithin (2 * Real.pi) (Set.Iio (2 * Real.pi)))
          (nhds ((2 / Real.pi) * (2 * Real.pi - Real.pi))) :=
        Filter.Tendsto.mono_left
          ((continuous_const.mul (continuous_id.sub continuous_const)).tendsto
            (2 * Real.pi))
          nhdsWithin_le_nhds
      have hv : (2 / Real.pi) * (2 * Real.pi - Real.pi) = 2 := by
        have hpi := Real.pi_ne_zero
        field_simp
        ring
      rw [hv] at hgc
      have hmem : Set.Ioo (0 : ℝ) (2 * Real.pi) ∈
          nhdsWithin (2 * Real.pi) (Set.Iio (2 * Real.pi)) :=
        Ioo_mem_nhdsWithin_Iio' hy
      refine Filter.Tendsto.congr' ?_ hgc
      refine Filter.eventuallyEq_of_mem hmem (fun t ht => ?_)
      have hcf : cfmod t (2 * Real.pi) = t := by
        have h := cfmod_eq_sub_int t (2 * Real.pi) 0 hy le_rfl
          (by simpa using ht.1.le) (by push_cast; linarith [ht.2])
        simpa using h
      rw [sawValue, hcf]
    haveI : Filter.NeBot (nhdsWithin (2 * Real.pi) (Set.Iio (2 * Real.pi))) :=
      nhdsWithin_Iio_neBot le_rfl
    have hcontr : (-2 : ℝ) = 2 := tendsto_nhds_unique hW hG
    linarith

/-- Witness for C8 amended: sawtooth periodicity instantiated at angle `0`. -/
theorem C8_periodicity_continuity_witness :
    sawValue (0 + 2 * Real.pi) = sawValue 0 :=
  C8_periodicity_continuity.2.2.1 0 le_rfl
